import Mathlib

/-!
Verification of the mentor-conversation engine of Project-SKill
(`src/components/HeroSection.tsx`, the AI chat panel): the stream
ingestor, the fenced-command extractor, the intake collector state
machine and the operation dispatcher.

JavaScript strings are modelled as `List Char`; the external JSON
parser (`JSON.parse`) and the external collaborators (file system,
database, DOM download) are modelled as abstract parameters, since the
spec treats them as external collaborators.
-/

namespace ProjectSkill

abbrev Str := List Char

/-- The whitespace characters relevant to `String.prototype.trim` /
`\s` on the ASCII inputs this engine handles. -/
def isWS (c : Char) : Bool :=
  c = ' ' || c = '\t' || c = '\n' || c = '\r'

/-- Left trim: drop leading whitespace. -/
def trimL (s : Str) : Str := s.dropWhile isWS

/-- JS `s.trim()`: right trim (via reverse) then left trim. -/
def trimStr (s : Str) : Str := trimL ((trimL s.reverse).reverse)

/-- ASCII case folding, as used by `toLowerCase` / the `i` regex flag
on the ASCII phrases of the source. -/
def lowerChar (c : Char) : Char :=
  if 'A' ≤ c ∧ c ≤ 'Z' then Char.ofNat (c.toNat + 32) else c

def lower (s : Str) : Str := s.map lowerChar

/-- `textBuffer.indexOf("\n")` + the two slices: split a buffer at its
first newline, if any. -/
def splitAtNl : Str → Option (Str × Str)
  | [] => none
  | c :: t =>
    if c = '\n' then some ([], t)
    else (splitAtNl t).map (fun p => (c :: p.1, p.2))

/-- JS `s.split("\n")` (all segments kept, including empty ones). -/
def splitOnNl : Str → List Str
  | [] => [[]]
  | c :: t =>
    if c = '\n' then [] :: splitOnNl t
    else
      match splitOnNl t with
      | [] => [[c]]
      | l :: ls => (c :: l) :: ls

/-- JS `line.endsWith("\r") ? line.slice(0, -1) : line` (written via
`reverse` so the trailing character is structurally exposed). -/
def stripCR (l : Str) : Str :=
  match l.reverse with
  | '\r' :: t => t.reverse
  | _ => l

/-- JS `line.startsWith(":")`. -/
def startsColon (l : Str) : Bool :=
  l.head? == some ':'

/-- Case-sensitive substring test (JS `indexOf(pat) !== -1`). -/
def containsSub : Str → Str → Bool
  | s, pat =>
    if pat.isPrefixOf s then true
    else
      match s with
      | [] => false
      | _ :: t => containsSub t pat

/-- JS `text.indexOf(pat)`: index of the first occurrence. -/
def findSub : Str → Str → Option Nat
  | s, pat =>
    if pat.isPrefixOf s then some 0
    else
      match s with
      | [] => none
      | _ :: t => (findSub t pat).map (· + 1)

/-- JS `text.indexOf(pat, start)`. -/
def findFrom (text pat : Str) (start : Nat) : Option Nat :=
  (findSub (text.drop start) pat).map (· + start)

theorem splitAtNl_eq_none {s : Str} (h : splitAtNl s = none) : '\n' ∉ s := by
  induction s with
  | nil => simp
  | cons c t ih =>
    simp only [splitAtNl] at h
    by_cases hc : c = '\n'
    · simp [hc] at h
    · simp only [hc, if_false, Option.map_eq_none'] at h
      intro hmem
      rcases List.mem_cons.mp hmem with h1 | h1
      · exact hc h1.symm
      · exact ih h h1

theorem splitAtNl_eq_some {s l r : Str} (h : splitAtNl s = some (l, r)) :
    s = l ++ '\n' :: r ∧ '\n' ∉ l := by
  induction s generalizing l r with
  | nil => simp [splitAtNl] at h
  | cons c t ih =>
    simp only [splitAtNl] at h
    by_cases hc : c = '\n'
    · simp only [hc, if_true] at h
      obtain ⟨h1, h2⟩ := Prod.mk.injEq .. ▸ Option.some.injEq .. ▸ h
      cases h
      simp [hc]
    · simp only [hc, if_false] at h
      match ht : splitAtNl t with
      | none => rw [ht] at h; simp at h
      | some (l', r') =>
        rw [ht] at h
        simp only [Option.map_some', Option.some.injEq, Prod.mk.injEq] at h
        obtain ⟨h1, h2⟩ := h
        obtain ⟨ht1, ht2⟩ := ih ht
        subst h1 h2
        constructor
        · simp [ht1]
        · intro hmem
          rcases List.mem_cons.mp hmem with h1 | h1
          · exact hc h1.symm
          · exact ht2 h1

theorem splitAtNl_length {s l r : Str} (h : splitAtNl s = some (l, r)) :
    r.length < s.length := by
  obtain ⟨h1, _⟩ := splitAtNl_eq_some h
  subst h1
  simp
  omega

theorem containsSub_length {s pat : Str} (h : containsSub s pat = true) :
    pat.length ≤ s.length := by
  induction s with
  | nil =>
    rw [containsSub] at h
    by_cases hp : pat.isPrefixOf ([] : Str)
    · have := List.isPrefixOf_iff_prefix.mp hp
      have := this.length_le
      simpa using this
    · simp [hp] at h
  | cons c t ih =>
    rw [containsSub] at h
    by_cases hp : pat.isPrefixOf (c :: t)
    · exact (List.isPrefixOf_iff_prefix.mp hp).length_le
    · simp only [hp, if_false] at h
      have := ih h
      simp
      omega

theorem trimL_cons_ws {c : Char} {s : Str} (h : isWS c = true) :
    trimL (c :: s) = trimL s := by
  simp [trimL, List.dropWhile, h]

theorem trimStr_concat_cr (t : Str) : trimStr (t ++ ['\r']) = trimStr t := by
  have h : isWS '\r' = true := by decide
  simp [trimStr, List.reverse_append, trimL_cons_ws h]

theorem trimStr_eq_nil_iff {s : Str} :
    trimStr s = [] ↔ ∀ c ∈ s, isWS c = true := by
  constructor
  · intro h c hc
    have h1 : ∀ x ∈ (trimL s.reverse).reverse, isWS x = true := by
      intro x hx
      exact List.dropWhile_eq_nil_iff.mp h x hx
    have hrev : c ∈ s.reverse := List.mem_reverse.mpr hc
    rw [← List.takeWhile_append_dropWhile (p := isWS) (l := s.reverse)] at hrev
    rcases List.mem_append.mp hrev with h2 | h2
    · exact List.mem_takeWhile_imp h2
    · exact h1 c (List.mem_reverse.mpr h2)
  · intro h
    have h1 : trimL s.reverse = [] := by
      apply List.dropWhile_eq_nil_iff.mpr
      intro x hx
      exact h x (List.mem_reverse.mp hx)
    show trimL ((trimL s.reverse).reverse) = []
    rw [h1]
    rfl

theorem stripCR_spec (l : Str) :
    stripCR l = l ∨ ∃ t, l = t ++ ['\r'] ∧ stripCR l = t := by
  unfold stripCR
  split
  · next t hr =>
    right
    refine ⟨t.reverse, ?_, rfl⟩
    conv_lhs => rw [← l.reverse_reverse, hr]
    simp
  · next => left; rfl

theorem stripCR_no_nl {l : Str} (h : '\n' ∉ l) : '\n' ∉ stripCR l := by
  rcases stripCR_spec l with h1 | ⟨t, h1, h2⟩
  · rw [h1]; exact h
  · rw [h2]
    intro hm
    exact h (h1 ▸ List.mem_append.mpr (Or.inl hm))

theorem splitOnNl_ne_nil (s : Str) : splitOnNl s ≠ [] := by
  cases s with
  | nil => simp [splitOnNl]
  | cons c t =>
    rw [splitOnNl]
    by_cases hc : c = '\n'
    · simp [hc]
    · simp only [hc, if_false]
      match splitOnNl t with
      | [] => simp
      | l :: ls => simp

theorem splitOnNl_no_nl {s : Str} (h : '\n' ∉ s) : splitOnNl s = [s] := by
  induction s with
  | nil => rfl
  | cons c t ih =>
    have hc : ¬ c = '\n' := fun hh => h (hh ▸ List.mem_cons_self c t)
    have ht : '\n' ∉ t := fun hh => h (List.mem_cons_of_mem c hh)
    rw [splitOnNl]
    simp only [hc, if_false, ih ht]

theorem splitOnNl_append {l r : Str} (h : '\n' ∉ l) :
    splitOnNl (l ++ '\n' :: r) = l :: splitOnNl r := by
  induction l with
  | nil => simp [splitOnNl]
  | cons c t ih =>
    have hc : ¬ c = '\n' := fun hh => h (hh ▸ List.mem_cons_self c t)
    have ht : '\n' ∉ t := fun hh => h (List.mem_cons_of_mem c hh)
    rw [List.cons_append, splitOnNl]
    simp only [hc, if_false, ih ht]

theorem mem_of_mem_splitOnNl {s seg : Str} {c : Char}
    (hseg : seg ∈ splitOnNl s) (hc : c ∈ seg) : c ∈ s := by
  induction s generalizing seg with
  | nil =>
    simp only [splitOnNl, List.mem_singleton] at hseg
    subst hseg
    simp at hc
  | cons a t ih =>
    rw [splitOnNl] at hseg
    by_cases ha : a = '\n'
    · simp only [ha, if_true, List.mem_cons] at hseg
      rcases hseg with h1 | h1
      · subst h1; simp at hc
      · exact List.mem_cons_of_mem a (ih h1 hc)
    · simp only [ha, if_false] at hseg
      match hs : splitOnNl t with
      | [] => exact absurd hs (splitOnNl_ne_nil t)
      | l :: ls =>
        rw [hs] at hseg
        rcases List.mem_cons.mp hseg with h1 | h1
        · subst h1
          rcases List.mem_cons.mp hc with h2 | h2
          · exact h2 ▸ List.mem_cons_self a t
          · exact List.mem_cons_of_mem a (ih (hs ▸ List.mem_cons_self l ls) h2)
        · exact List.mem_cons_of_mem a (ih (hs ▸ List.mem_cons_of_mem l h1) hc)

/-! ## The Stream Ingestor (`streamChat`, read loop and final flush) -/

def dataMarker : Str := "data: ".data

def doneSentinel : Str := "[DONE]".data

/-- Outcome of the shared per-line checks of the read loop and the
final flush, applied to a line whose trailing `\r` was stripped.
`parse` models `JSON.parse` composed with the
`parsed.choices?.[0]?.delta?.content` access: `none` means
`JSON.parse` threw, `some none` means no truthy `content` field, and
`some (some c)` means a truthy delta `c` was extracted. -/
inductive LineStep where
  | skip
  | halt
  | content (c : Str)
  | nocontent
  | malformed
deriving DecidableEq

def classifyLine (parse : Str → Option (Option Str)) (line : Str) : LineStep :=
  if startsColon line = true ∨ trimStr line = [] then .skip
  else if dataMarker.isPrefixOf line = true then
    let jsonStr := trimStr (line.drop 6)
    if jsonStr = doneSentinel then .halt
    else
      match parse jsonStr with
      | none => .malformed
      | some none => .nocontent
      | some (some c) => .content c
  else .skip

/-- The inner `while ((newlineIndex = textBuffer.indexOf("\n")) !== -1)`
loop of `streamChat`: pop complete lines off the buffer, appending
extracted deltas to the accumulated assistant content; `[DONE]` breaks
out for this read, and a line whose JSON payload fails to parse is put
back at the front of the buffer (re-terminated with a newline) before
breaking. Returns (buffer, assistantContent). -/
def processLines (parse : Str → Option (Option Str)) (buf acc : Str) : Str × Str :=
  match h : splitAtNl buf with
  | none => (buf, acc)
  | some (line0, rest) =>
    let line := stripCR line0
    match classifyLine parse line with
    | .skip => processLines parse rest acc
    | .halt => (rest, acc)
    | .content c => processLines parse rest (acc ++ c)
    | .nocontent => processLines parse rest acc
    | .malformed => (line ++ '\n' :: rest, acc)
termination_by buf.length
decreasing_by all_goals exact splitAtNl_length h

/-- One iteration of the outer read loop: decode the chunk, append it
to the buffer, and run line processing. -/
def processRead (parse : Str → Option (Option Str)) (st : Str × Str) (chunk : Str) :
    Str × Str :=
  processLines parse (st.1 ++ chunk) st.2

/-- Value contributed by one raw segment of the final flush
(`textBuffer.split("\n")` loop): the delta if the line is a parseable
`data: ` line with truthy content, nothing otherwise. -/
def flushLineVal (parse : Str → Option (Option Str)) (raw0 : Str) : Str :=
  if raw0 = [] then []
  else
    match classifyLine parse (stripCR raw0) with
    | .content c => c
    | _ => []

/-- The final flush after end-of-stream (`if (textBuffer.trim()) ...`). -/
def finalFlush (parse : Str → Option (Option Str)) (st : Str × Str) : Str :=
  if trimStr st.1 = [] then st.2
  else (splitOnNl st.1).foldl (fun a r => a ++ flushLineVal parse r) st.2

/-- The whole ingestor: fold the reads, then flush. Produces the final
accumulated assistant content. -/
def ingest (parse : Str → Option (Option Str)) (chunks : List Str) : Str :=
  finalFlush parse (chunks.foldl (processRead parse) ([], []))

/-- Reference value: per-line processing of a whole text at once. -/
def pureVal (parse : Str → Option (Option Str)) (b : Str) : Str :=
  (splitOnNl b).foldl (fun a r => a ++ flushLineVal parse r) []

theorem foldl_flush_append (parse : Str → Option (Option Str)) (ls : List Str) (a : Str) :
    ls.foldl (fun x r => x ++ flushLineVal parse r) a
      = a ++ ls.foldl (fun x r => x ++ flushLineVal parse r) [] := by
  induction ls generalizing a with
  | nil => simp
  | cons l ls ih =>
    simp only [List.foldl_cons, List.nil_append]
    rw [ih (a ++ flushLineVal parse l), ih (flushLineVal parse l)]
    simp [List.append_assoc]

theorem classifyLine_nil (parse : Str → Option (Option Str)) :
    classifyLine parse [] = .skip := by
  simp [classifyLine, trimStr, trimL]

theorem flushLineVal_eq (parse : Str → Option (Option Str)) (raw0 : Str) :
    flushLineVal parse raw0
      = match classifyLine parse (stripCR raw0) with
        | .content c => c
        | _ => [] := by
  by_cases h : raw0 = []
  · subst h
    simp [flushLineVal, stripCR, classifyLine_nil]
  · simp [flushLineVal, h]

theorem startsColon_concat_cr (t : Str) : startsColon (t ++ ['\r']) = startsColon t := by
  cases t with
  | nil => rfl
  | cons a t => rfl

theorem dataMarker_not_concat_cr (t : Str) : dataMarker ≠ t ++ ['\r'] := by
  intro h
  have h1 : dataMarker.getLast? = some '\r' := by rw [h]; simp
  have h2 : dataMarker.getLast? = some ' ' := by decide
  rw [h2] at h1
  simp at h1

theorem dataMarker_prefix_concat_cr (t : Str) :
    dataMarker <+: (t ++ ['\r']) ↔ dataMarker <+: t := by
  rw [List.prefix_concat_iff]
  constructor
  · rintro (h | h)
    · exact absurd h (dataMarker_not_concat_cr t)
    · exact h
  · exact Or.inr

theorem classifyLine_stripCR (parse : Str → Option (Option Str)) (l : Str) :
    classifyLine parse (stripCR l) = classifyLine parse l := by
  rcases stripCR_spec l with h | ⟨t, h1, h2⟩
  · rw [h]
  · rw [h2]
    subst h1
    unfold classifyLine
    rw [startsColon_concat_cr, trimStr_concat_cr]
    by_cases hskip : startsColon t = true ∨ trimStr t = []
    · rw [if_pos hskip, if_pos hskip]
    · rw [if_neg hskip, if_neg hskip]
      by_cases hpre : dataMarker.isPrefixOf t = true
      · have hpre' : dataMarker.isPrefixOf (t ++ ['\r']) = true := by
          rw [List.isPrefixOf_iff_prefix] at hpre ⊢
          exact (dataMarker_prefix_concat_cr t).mpr hpre
        rw [if_pos hpre, if_pos hpre']
        have hlen : 6 ≤ t.length := by
          have := (List.isPrefixOf_iff_prefix.mp hpre).length_le
          have h6 : dataMarker.length = 6 := by decide
          omega
        rw [List.drop_append_of_le_length hlen, trimStr_concat_cr]
      · have hpre' : ¬ dataMarker.isPrefixOf (t ++ ['\r']) = true := by
          rw [List.isPrefixOf_iff_prefix] at hpre ⊢
          exact fun hh => hpre ((dataMarker_prefix_concat_cr t).mp hh)
        rw [if_neg hpre, if_neg hpre']

theorem pureVal_append_line (parse : Str → Option (Option Str)) {l : Str} (r : Str)
    (h : '\n' ∉ l) :
    pureVal parse (l ++ '\n' :: r) = flushLineVal parse l ++ pureVal parse r := by
  unfold pureVal
  rw [splitOnNl_append h]
  simp only [List.foldl_cons, List.nil_append]
  exact foldl_flush_append parse _ _

theorem flushLineVal_of_ws {raw0 : Str} (parse : Str → Option (Option Str))
    (h : ∀ c ∈ raw0, isWS c = true) : flushLineVal parse raw0 = [] := by
  rw [flushLineVal_eq]
  have hws : ∀ c ∈ stripCR raw0, isWS c = true := by
    rcases stripCR_spec raw0 with h1 | ⟨t, h1, h2⟩
    · rw [h1]; exact h
    · rw [h2]
      intro c hc
      exact h c (h1 ▸ List.mem_append.mpr (Or.inl hc))
  have htrim : trimStr (stripCR raw0) = [] := trimStr_eq_nil_iff.mpr hws
  have hcl : classifyLine parse (stripCR raw0) = .skip := by
    unfold classifyLine
    rw [if_pos (Or.inr htrim)]
  rw [hcl]

theorem pureVal_of_ws {b : Str} (parse : Str → Option (Option Str))
    (h : trimStr b = []) : pureVal parse b = [] := by
  have hws := trimStr_eq_nil_iff.mp h
  have hall : ∀ seg ∈ splitOnNl b, flushLineVal parse seg = [] := by
    intro seg hseg
    apply flushLineVal_of_ws parse
    intro c hc
    exact hws c (mem_of_mem_splitOnNl hseg hc)
  unfold pureVal
  generalize hls : splitOnNl b = ls at hall
  clear hls hws h
  induction ls with
  | nil => rfl
  | cons l ls ih =>
    simp only [List.foldl_cons, List.nil_append, hall l (List.mem_cons_self l ls)]
    exact ih (fun seg hs => hall seg (List.mem_cons_of_mem l hs))

theorem finalFlush_eq (parse : Str → Option (Option Str)) (st : Str × Str) :
    finalFlush parse st = st.2 ++ pureVal parse st.1 := by
  unfold finalFlush
  by_cases h : trimStr st.1 = []
  · rw [if_pos h, pureVal_of_ws parse h, List.append_nil]
  · rw [if_neg h]
    exact foldl_flush_append parse _ _

theorem processLines_none {parse : Str → Option (Option Str)} {buf acc : Str}
    (h : splitAtNl buf = none) : processLines parse buf acc = (buf, acc) := by
  rw [processLines, h]

theorem processLines_some {parse : Str → Option (Option Str)} {buf acc line0 rest : Str}
    (h : splitAtNl buf = some (line0, rest)) :
    processLines parse buf acc =
      match classifyLine parse (stripCR line0) with
      | .skip => processLines parse rest acc
      | .halt => (rest, acc)
      | .content c => processLines parse rest (acc ++ c)
      | .nocontent => processLines parse rest acc
      | .malformed => (stripCR line0 ++ '\n' :: rest, acc) := by
  rw [processLines, h]

theorem processLines_pureVal (parse : Str → Option (Option Str)) (buf acc : Str) :
    ∀ s : Str,
      (processLines parse buf acc).2
          ++ pureVal parse ((processLines parse buf acc).1 ++ s)
        = acc ++ pureVal parse (buf ++ s) := by
  induction buf, acc using processLines.induct parse with
  | case1 buf acc heq =>
    intro s
    rw [processLines_none heq]
  | case2 buf acc line0 rest heq line hcl ih =>
    intro s
    rw [processLines_some heq, show classifyLine parse (stripCR line0) = LineStep.skip from hcl]
    rw [ih s]
    obtain ⟨hb, hnl⟩ := splitAtNl_eq_some heq
    subst hb
    rw [List.append_assoc, List.cons_append, pureVal_append_line parse (rest ++ s) hnl]
    rw [flushLineVal_eq, show classifyLine parse (stripCR line0) = LineStep.skip from hcl]
    simp
  | case3 buf acc line0 rest heq line hcl =>
    intro s
    rw [processLines_some heq, show classifyLine parse (stripCR line0) = LineStep.halt from hcl]
    obtain ⟨hb, hnl⟩ := splitAtNl_eq_some heq
    subst hb
    rw [List.append_assoc, List.cons_append, pureVal_append_line parse (rest ++ s) hnl]
    rw [flushLineVal_eq, show classifyLine parse (stripCR line0) = LineStep.halt from hcl]
    simp
  | case4 buf acc line0 rest heq line c hcl ih =>
    intro s
    rw [processLines_some heq,
      show classifyLine parse (stripCR line0) = LineStep.content c from hcl]
    rw [ih s]
    obtain ⟨hb, hnl⟩ := splitAtNl_eq_some heq
    subst hb
    rw [show (line0 ++ '\n' :: rest) ++ s = line0 ++ '\n' :: (rest ++ s) by simp]
    rw [pureVal_append_line parse (rest ++ s) hnl]
    rw [flushLineVal_eq, show classifyLine parse (stripCR line0) = LineStep.content c from hcl]
    simp [List.append_assoc]
  | case5 buf acc line0 rest heq line hcl ih =>
    intro s
    rw [processLines_some heq,
      show classifyLine parse (stripCR line0) = LineStep.nocontent from hcl]
    rw [ih s]
    obtain ⟨hb, hnl⟩ := splitAtNl_eq_some heq
    subst hb
    rw [List.append_assoc, List.cons_append, pureVal_append_line parse (rest ++ s) hnl]
    rw [flushLineVal_eq, show classifyLine parse (stripCR line0) = LineStep.nocontent from hcl]
    simp
  | case6 buf acc line0 rest heq line hcl =>
    intro s
    rw [processLines_some heq,
      show classifyLine parse (stripCR line0) = LineStep.malformed from hcl]
    obtain ⟨hb, hnl⟩ := splitAtNl_eq_some heq
    subst hb
    have hnl2 : '\n' ∉ stripCR line0 := stripCR_no_nl hnl
    rw [List.append_assoc, List.cons_append, List.append_assoc, List.cons_append]
    rw [pureVal_append_line parse (rest ++ s) hnl2, pureVal_append_line parse (rest ++ s) hnl]
    rw [flushLineVal_eq parse (stripCR line0), classifyLine_stripCR,
      show classifyLine parse (stripCR line0) = LineStep.malformed from hcl]
    rw [flushLineVal_eq parse line0,
      show classifyLine parse (stripCR line0) = LineStep.malformed from hcl]

theorem foldl_processRead (parse : Str → Option (Option Str)) (chunks : List Str) :
    ∀ (st : Str × Str) (s : Str),
      (chunks.foldl (processRead parse) st).2
          ++ pureVal parse ((chunks.foldl (processRead parse) st).1 ++ s)
        = st.2 ++ pureVal parse (st.1 ++ (chunks.flatten ++ s)) := by
  induction chunks with
  | nil => intro st s; simp
  | cons c cs ih =>
    intro st s
    simp only [List.foldl_cons, List.flatten_cons]
    rw [ih (processRead parse st c) s]
    unfold processRead
    rw [processLines_pureVal]
    simp [List.append_assoc]

theorem ingest_eq_pureVal (parse : Str → Option (Option Str)) (chunks : List Str) :
    ingest parse chunks = pureVal parse chunks.flatten := by
  unfold ingest
  rw [finalFlush_eq]
  have h := foldl_processRead parse chunks ([], []) []
  simpa using h

/-- C1: Chunk-boundary invariance of the Stream Ingestor: for every
fixed logical response text and every way of splitting that text into
a sequence of chunks, running the buffer/line-processing loop over the
chunks (with the final flush pass after end-of-stream) produces the
same final accumulated assistant content as processing the entire text
delivered as a single chunk. Quantified over every delta-extraction
function `parse`, which covers the source's `JSON.parse` +
`choices[0].delta.content` access. -/
theorem stream_chunk_boundary_invariance (parse : Str → Option (Option Str))
    (chunks : List Str) :
    ingest parse chunks = ingest parse [chunks.flatten] := by
  rw [ingest_eq_pureVal, ingest_eq_pureVal]
  simp

/-- C2: Rebuffer on partial parse: whenever the next complete line of
the buffer is a `data: `-prefixed line (neither comment, blank, nor the
`[DONE]` sentinel) whose JSON payload fails to parse, the read loop
neither discards the line nor surfaces an error: it puts the line back
at the front of the buffer re-terminated with a newline, leaves the
accumulated content unchanged, and stops line processing for the
current read. -/
theorem stream_rebuffer_on_parse_failure (parse : Str → Option (Option Str))
    (buf acc line0 rest : Str)
    (hsplit : splitAtNl buf = some (line0, rest))
    (hcolon : startsColon (stripCR line0) = false)
    (hblank : trimStr (stripCR line0) ≠ [])
    (hdata : dataMarker.isPrefixOf (stripCR line0) = true)
    (hdone : trimStr ((stripCR line0).drop 6) ≠ doneSentinel)
    (hfail : parse (trimStr ((stripCR line0).drop 6)) = none) :
    processLines parse buf acc = (stripCR line0 ++ '\n' :: rest, acc) := by
  have hskip : ¬ (startsColon (stripCR line0) = true ∨ trimStr (stripCR line0) = []) := by
    rintro (h | h)
    · rw [hcolon] at h; cases h
    · exact hblank h
  have hcl : classifyLine parse (stripCR line0) = .malformed := by
    unfold classifyLine
    rw [if_neg hskip, if_pos hdata]
    simp only [if_neg hdone, hfail]
  rw [processLines_some hsplit, hcl]

/-- Witness for C2: a concrete read where the single complete line
`data: x` has an unparseable payload, with concrete chunk remainder
`more` and prior accumulated content `A`. -/
theorem stream_rebuffer_on_parse_failure_witness :
    processLines (fun _ => none) ("data: x\nmore".data) ("A".data)
      = ("data: x".data ++ '\n' :: "more".data, "A".data) :=
  stream_rebuffer_on_parse_failure (fun _ => none)
    ("data: x\nmore".data) ("A".data) ("data: x".data) ("more".data)
    (by decide) (by decide) (by decide) (by decide) (by decide) rfl

/-! ## The Command Extractor (`extractFencedJson`) and stream finalization -/

/-- JSON values, as produced by the external `JSON.parse`. -/
inductive Json where
  | null
  | bool (b : Bool)
  | num (n : Int)
  | str (s : Str)
  | arr (elems : List Json)
  | obj (fields : List (Str × Json))

/-- JS truthiness of a JSON value (`null`, `false`, `0` and `""` are
falsy; arrays and objects are always truthy). -/
def jsTruthy : Json → Bool
  | .null => false
  | .bool b => b
  | .num n => n ≠ 0
  | .str s => s ≠ []
  | .arr _ => true
  | .obj _ => true

/-- JS truthiness of an optional string (null/undefined and "" falsy). -/
def optTruthyS : Option Str → Bool
  | some s => s ≠ []
  | none => false

def fence : Str := "```".data

/-- `text.slice(start + startTag.length, closing).trim()`. -/
def innerRaw (text tag : Str) (start closing : Nat) : Str :=
  trimStr ((text.drop (start + (fence ++ tag).length)).take
    (closing - (start + (fence ++ tag).length)))

/-- The per-tag fenced-block scanner of `streamChat`: find the first
opening fence carrying the tag, the nearest subsequent closing fence,
trim the inner text and parse it; any failure yields `null`.
`parse` models the external `JSON.parse` (`none` = throw). -/
def extractFencedJson (parse : Str → Option Json) (text tag : Str) : Option (Str × Json) :=
  match findSub text (fence ++ tag) with
  | none => none
  | some start =>
    match findFrom text fence (start + (fence ++ tag).length) with
    | none => none
    | some closing =>
      if closing ≤ start then none
      else
        match parse (innerRaw text tag start closing) with
        | some p => some (innerRaw text tag start closing, p)
        | none => none

theorem findFrom_ge {text pat : Str} {k m : Nat} (h : findFrom text pat k = some m) :
    k ≤ m := by
  unfold findFrom at h
  match hf : findSub (text.drop k) pat with
  | none => rw [hf] at h; simp at h
  | some i =>
    rw [hf] at h
    simp only [Option.map_some', Option.some.injEq] at h
    omega

/-- C7: Command Extractor absence semantics: for any tag, extraction
returns absent (`none`, never a partial or error-shaped value) when no
opening fence with that tag exists, when no closing fence follows the
opening fence, or when the trimmed inner text fails to parse as JSON;
otherwise it returns the parsed payload of the first matching span.
The scan is a pure function of `(text, tag)` alone, so well-formed or
malformed blocks of the other tags influence a tag's result only
through these same conditions on its own first span. -/
theorem command_extractor_absence_and_first_span (parse : Str → Option Json)
    (text tag : Str) :
    (findSub text (fence ++ tag) = none → extractFencedJson parse text tag = none) ∧
    (∀ st, findSub text (fence ++ tag) = some st →
      findFrom text fence (st + (fence ++ tag).length) = none →
      extractFencedJson parse text tag = none) ∧
    (∀ st cl, findSub text (fence ++ tag) = some st →
      findFrom text fence (st + (fence ++ tag).length) = some cl →
      parse (innerRaw text tag st cl) = none →
      extractFencedJson parse text tag = none) ∧
    (∀ st cl p, findSub text (fence ++ tag) = some st →
      findFrom text fence (st + (fence ++ tag).length) = some cl →
      parse (innerRaw text tag st cl) = some p →
      extractFencedJson parse text tag = some (innerRaw text tag st cl, p)) := by
  have hnotle : ∀ st cl, findFrom text fence (st + (fence ++ tag).length) = some cl →
      ¬ cl ≤ st := by
    intro st cl hcl
    have h1 := findFrom_ge hcl
    have h2 : (fence ++ tag).length = 3 + tag.length := by
      rw [List.length_append]
      rfl
    omega
  refine ⟨?_, ?_, ?_, ?_⟩
  · intro h
    simp only [extractFencedJson, h]
  · intro st h1 h2
    simp only [extractFencedJson, h1, h2]
  · intro st cl h1 h2 h3
    simp only [extractFencedJson, h1, h2]
    rw [if_neg (hnotle st cl h2), h3]
  · intro st cl p h1 h2 h3
    simp only [extractFencedJson, h1, h2]
    rw [if_neg (hnotle st cl h2), h3]

/-- A concrete stand-in for `JSON.parse`, used by witnesses: it parses
exactly the body `[1]`. -/
def jparse : Str → Option Json := fun s =>
  if s = "[1]".data then some (Json.arr [Json.num 1]) else none

/-- Witness for C7: a text with no opening fence, an unterminated
block, a block whose body fails to parse, and a well-formed block. -/
theorem command_extractor_witness :
    extractFencedJson jparse ("no fences here".data) ("FILE_OPS".data) = none ∧
    extractFencedJson jparse ("```FILE_OPS\n[1]".data) ("FILE_OPS".data) = none ∧
    extractFencedJson jparse ("```FILE_OPS\nbad\n```".data) ("FILE_OPS".data) = none ∧
    extractFencedJson jparse ("```FILE_OPS\n[1]\n```".data) ("FILE_OPS".data)
      = some ("[1]".data, Json.arr [Json.num 1]) := by
  refine ⟨?_, ?_, ?_, ?_⟩
  · exact (command_extractor_absence_and_first_span jparse
      ("no fences here".data) ("FILE_OPS".data)).1 (by decide)
  · exact (command_extractor_absence_and_first_span jparse
      ("```FILE_OPS\n[1]".data) ("FILE_OPS".data)).2.1 0 (by decide) (by decide)
  · exact (command_extractor_absence_and_first_span jparse
      ("```FILE_OPS\nbad\n```".data) ("FILE_OPS".data)).2.2.1 0 16
      (by decide) (by decide) rfl
  · exact (command_extractor_absence_and_first_span jparse
      ("```FILE_OPS\n[1]\n```".data) ("FILE_OPS".data)).2.2.2 0 16
      (Json.arr [Json.num 1]) (by decide) (by decide) rfl

/-- Result of the post-stream finalization of `streamChat` (extraction,
staging of pending operations behind their confirmation dialogs,
message persistence, and the immediate mentor-report insert). -/
structure FinalizeResult where
  pendingFileOps : Option Json
  showFileOpsDialog : Bool
  pendingMilestoneOps : Option Json
  showMilestoneOpsDialog : Bool
  assistantPersisted : Bool
  mentorInsert : Option (Str × Json × Str)

/-- `if (extract?.parsed) setPending...(parsed)`: the staged payload. -/
def stagedOf (e : Option (Str × Json)) : Option Json :=
  match e with
  | some (_, p) => if jsTruthy p then some p else none
  | none => none

/-- The finalization code of `streamChat` after the read loop: run the
three independent extractions on the accumulated content, stage
file/milestone payloads behind their dialogs, persist the assistant
message, and insert the mentor report immediately when it parsed and a
submission id is present. No confirmation state is consulted. -/
def finalizeStream (parse : Str → Option Json) (assistantContent : Str)
    (currentConversation : Bool) (submissionId : Option Str) : FinalizeResult :=
  let fileOpsExtract :=
    if assistantContent ≠ [] then extractFencedJson parse assistantContent ("FILE_OPS".data)
    else none
  let mentorReportExtract :=
    if assistantContent ≠ [] then extractFencedJson parse assistantContent ("MENTOR_REPORT".data)
    else none
  let milestoneOpsExtract :=
    if assistantContent ≠ [] then extractFencedJson parse assistantContent ("MILESTONE_OPS".data)
    else none
  { pendingFileOps := stagedOf fileOpsExtract
    showFileOpsDialog := (stagedOf fileOpsExtract).isSome
    pendingMilestoneOps := stagedOf milestoneOpsExtract
    showMilestoneOpsDialog := (stagedOf milestoneOpsExtract).isSome
    assistantPersisted := currentConversation && assistantContent ≠ []
    mentorInsert :=
      match mentorReportExtract with
      | some (raw, p) =>
        if jsTruthy p = true ∧ optTruthyS submissionId = true then
          some (submissionId.getD [], p, raw)
        else none
      | none => none }

theorem extractFencedJson_nil (parse : Str → Option Json) (tag : Str) :
    extractFencedJson parse [] tag = none := by
  have h : findSub [] (fence ++ tag) = none := by
    rw [findSub]
    have : (fence ++ tag).isPrefixOf ([] : Str) = false := by
      cases hp : (fence ++ tag).isPrefixOf ([] : Str)
      · rfl
      · have := (List.isPrefixOf_iff_prefix.mp hp).length_le
        simp [fence] at this
    simp [this]
  simp only [extractFencedJson, h]

/-- C8: Mentor-report confirmation bypass: whenever the finalized
content carries a MENTOR_REPORT fenced block that parses to a truthy
payload and a submission id is available, finalization records the
mentor-report insert immediately — for every content (so independent
of whatever FILE_OPS or MILESTONE_OPS blocks are staged by the same
finalization) and with no confirmation input consulted (the
`finalizeStream` step takes none). -/
theorem mentor_report_confirmation_bypass (parse : Str → Option Json)
    (content : Str) (conv : Bool) (subId : Option Str) (raw : Str) (p : Json)
    (hex : extractFencedJson parse content ("MENTOR_REPORT".data) = some (raw, p))
    (hp : jsTruthy p = true)
    (hs : optTruthyS subId = true) :
    (finalizeStream parse content conv subId).mentorInsert
      = some (subId.getD [], p, raw) := by
  have hne : content ≠ [] := by
    intro h
    rw [h, extractFencedJson_nil] at hex
    cases hex
  simp only [finalizeStream, if_pos hne, hex]
  rw [if_pos ⟨hp, hs⟩]

/-- Witness for C8: a concrete content holding both a FILE_OPS block
and a MENTOR_REPORT block; the mentor insert is recorded during
finalization itself, while the file ops are merely staged. -/
theorem mentor_report_confirmation_bypass_witness :
    (finalizeStream jparse
        ("```FILE_OPS\n[1]\n```\n```MENTOR_REPORT\n[1]\n```".data)
        true (some ("sub1".data))).mentorInsert
      = some ("sub1".data, Json.arr [Json.num 1], "[1]".data) :=
  mentor_report_confirmation_bypass jparse
    ("```FILE_OPS\n[1]\n```\n```MENTOR_REPORT\n[1]\n```".data)
    true (some ("sub1".data)) ("[1]".data) (Json.arr [Json.num 1])
    rfl rfl rfl

/-! ## The Intake Collector (`parseIntakeFromText`, `handleSend`) -/

/-- JS `text.split(/\r?\n/)`. -/
def splitReNl : Str → List Str
  | [] => [[]]
  | '\r' :: '\n' :: t => [] :: splitReNl t
  | '\n' :: t => [] :: splitReNl t
  | c :: t =>
    match splitReNl t with
    | [] => [[c]]
    | l :: ls => (c :: l) :: ls

/-- The per-line regex `^([^:]+):\s*(.+)$` of `parseIntakeFromText`:
key = the non-empty run before the first colon, value = the rest with
leading whitespace skipped; `.` matches neither `\r` nor `\n`, so a
value containing either fails the match. The key is lowercased as in
`map[m[1].toLowerCase()] = m[2]`. -/
def kvOfLine (l : Str) : Option (Str × Str) :=
  let key := l.takeWhile (fun c => c ≠ ':')
  match l.dropWhile (fun c => c ≠ ':') with
  | ':' :: after =>
    let v := after.dropWhile isWS
    if key ≠ [] ∧ v ≠ [] ∧ '\r' ∉ v ∧ '\n' ∉ v then some (lower key, v) else none
  | _ => none

/-- The trimmed, non-empty lines of the message
(`text.split(/\r?\n/).map(l => l.trim()).filter(Boolean)`). -/
def intakeLines (text : Str) : List Str :=
  ((splitReNl text).map trimStr).filter (fun l => l ≠ [])

/-- One `map[m[1].toLowerCase()] = m[2]` step: record the line when
the regex matches (a later line with the same key overwrites via the
lookup taking the last write). -/
def buildStep (m : List (Str × Str)) (l : Str) : List (Str × Str) :=
  match kvOfLine l with
  | some (k, v) => m ++ [(k, v)]
  | none => m

/-- The `map` object of `parseIntakeFromText`. -/
def buildMap (text : Str) : List (Str × Str) :=
  (intakeLines text).foldl buildStep []

/-- `map[k] || ""` modulo the fallback: the last written value for the
key, or the empty string. -/
def lookupMap (m : List (Str × Str)) (k : Str) : Str :=
  match m.reverse.find? (fun p => p.1 = k) with
  | some p => p.2
  | none => []

/-- The `a || b` fallback chain on strings ("" is falsy). -/
def firstNonEmpty (a b : Str) : Str := if a ≠ [] then a else b

structure IntakeRecord where
  projectIdea : Str
  techStack : Str
  skillLevel : Str
  timeline : Str
deriving DecidableEq

/-- `parseIntakeFromText`: build the key map from the message lines,
resolve the four targets through their alias chains, succeed only when
all four are non-empty. -/
def parseIntakeFromText (text : Str) : Option IntakeRecord :=
  let m := buildMap text
  let projectIdea := firstNonEmpty (lookupMap m ("project idea".data)) (lookupMap m ("project".data))
  let techStack := firstNonEmpty (lookupMap m ("tech stack".data)) (lookupMap m ("tech".data))
  let skillLevel := firstNonEmpty (lookupMap m ("skill level".data)) (lookupMap m ("skill".data))
  let timeline := firstNonEmpty (lookupMap m ("timeline".data)) (lookupMap m ("timeframe".data))
  if projectIdea ≠ [] ∧ techStack ≠ [] ∧ skillLevel ≠ [] ∧ timeline ≠ [] then
    some ⟨projectIdea, techStack, skillLevel, timeline⟩
  else none

inductive Role where
  | user
  | assistant
deriving DecidableEq

inductive MsgType where
  | explanation
  | hint
  | question
  | warning
deriving DecidableEq

structure ChatMsg where
  role : Role
  content : Str
  mtype : Option MsgType
deriving DecidableEq

/-- The intake-relevant component state: `intake`, `intakeConfirmed`,
`awaitingConfirmation` (`useState` hooks of the chat panel). -/
structure SessState where
  intake : Option IntakeRecord
  intakeConfirmed : Bool
  awaitingConfirmation : Bool
deriving DecidableEq

def initialSession : SessState := ⟨none, false, false⟩

/-- The fixed `codeRequestPatterns` list (each regex is an unanchored,
case-insensitive phrase). -/
def codeRequestPhrases : List Str :=
  ["give me the code".data, "paste the code".data, "implement for me".data,
   "write the code".data, "full implementation".data, "complete solution".data]

/-- `rx.test(text)` for one `/phrase/i` pattern. -/
def matchesPhrase (text pat : Str) : Bool :=
  containsSub (lower text) (lower pat)

def isCodeRequest (text : Str) : Bool :=
  codeRequestPhrases.any (matchesPhrase text)

def apos : Char := Char.ofNat 39

def refusalContent : Str :=
  "I cannot provide code. Describe your intended approach and I will guide the logic, tests, and structure.".data

def echoContent (r : IntakeRecord) : Str :=
  "I parsed your intake as:\nProject idea: ".data ++ r.projectIdea
    ++ "\nTech stack: ".data ++ r.techStack
    ++ "\nSkill level: ".data ++ r.skillLevel
    ++ "\nTimeline: ".data ++ r.timeline
    ++ "\n\nPlease reply with **yes** to confirm or **no** to re-enter the details.".data

def confirmedContent : Str :=
  "Intake confirmed. Tell me which milestone you".data ++ [apos]
    ++ "d like to start with, or ask me to create the full milestone sequence.".data

def rejectedContent : Str :=
  "Okay — please re-enter the intake fields in the required format.".data

def helperContent : Str :=
  "Please provide the required intake fields in this exact format:\nProject idea: ...\nTech stack: ...\nSkill level: ...\nTimeline: ...\n\nOr confirm the parsed intake with ".data
    ++ [apos] ++ "yes".data ++ [apos] ++ "/".data ++ [apos] ++ "no".data ++ [apos] ++ ".".data

/-- Result of one `handleSend` call: the next component state, the
chat messages appended by this call, and the text handed to
`streamChat` when the confirmed path streams (that path appends its
own user message inside `streamChat`). -/
structure SendResult where
  state : SessState
  appended : List ChatMsg
  streamed : Option Str
deriving DecidableEq

/-- `handleSend`, faithfully: empty input is a no-op (the `isLoading`
UI re-entrancy flag is outside this model); a code-request phrase
short-circuits to a refusal; before confirmation the message is first
offered to `parseIntakeFromText`, then the yes/no confirmation replies
are handled, then the format helper; once confirmed the message
streams. -/
def handleSend (s : SessState) (input : Str) : SendResult :=
  if trimStr input = [] then ⟨s, [], none⟩
  else if isCodeRequest (trimStr input) = true then
    ⟨s, [⟨.user, trimStr input, none⟩, ⟨.assistant, refusalContent, some .warning⟩], none⟩
  else if s.intakeConfirmed = false then
    match parseIntakeFromText (trimStr input) with
    | some parsed =>
      ⟨⟨some parsed, s.intakeConfirmed, true⟩,
       [⟨.user, trimStr input, none⟩, ⟨.assistant, echoContent parsed, some .question⟩], none⟩
    | none =>
      if s.awaitingConfirmation = true ∧ lower (trimStr input) = "yes".data ∧ s.intake.isSome then
        ⟨⟨s.intake, true, false⟩,
         [⟨.user, trimStr input, none⟩, ⟨.assistant, confirmedContent, some .explanation⟩], none⟩
      else if s.awaitingConfirmation = true ∧ lower (trimStr input) = "no".data then
        ⟨⟨none, s.intakeConfirmed, false⟩,
         [⟨.user, trimStr input, none⟩, ⟨.assistant, rejectedContent, some .explanation⟩], none⟩
      else
        ⟨s, [⟨.user, trimStr input, none⟩, ⟨.assistant, helperContent, some .question⟩], none⟩
  else
    ⟨s, [], some (trimStr input)⟩

/-- The session states reachable from the initial component state by
any sequence of `handleSend` calls (the streaming path mutates none of
the three intake fields). -/
inductive Reachable : SessState → Prop where
  | init : Reachable initialSession
  | step (s : SessState) (input : Str) : Reachable s → Reachable (handleSend s input).state

theorem lower_length (s : Str) : (lower s).length = s.length := by
  simp [lower]

theorem isCodeRequest_eq_false_of_short {text : Str} (h : text.length < 14) :
    isCodeRequest text = false := by
  unfold isCodeRequest
  rw [List.any_eq_false]
  intro pat hpat
  intro hc
  have hp : 14 ≤ pat.length := by
    have hall : ∀ p ∈ codeRequestPhrases, 14 ≤ p.length := by decide
    exact hall pat hpat
  have hlen := containsSub_length hc
  rw [lower_length, lower_length] at hlen
  omega

theorem colon_not_mem_of_lower {text k : Str} (h : lower text = k) (hk : ':' ∉ k) :
    ':' ∉ text := by
  intro hc
  apply hk
  have h1 : lowerChar ':' ∈ lower text := List.mem_map_of_mem lowerChar hc
  rw [show lowerChar ':' = ':' from by decide] at h1
  rw [h] at h1
  exact h1

theorem mem_trimStr {s : Str} {c : Char} (h : c ∈ trimStr s) : c ∈ s := by
  have h1 : c ∈ (trimL s.reverse).reverse := (List.dropWhile_sublist _).subset h
  have h2 : c ∈ s.reverse := (List.dropWhile_sublist _).subset (List.mem_reverse.mp h1)
  exact List.mem_reverse.mp h2

theorem splitReNl_ne_nil (s : Str) : splitReNl s ≠ [] := by
  induction s using splitReNl.induct with
  | case1 => simp [splitReNl]
  | case2 t ih => simp [splitReNl]
  | case3 t ih => simp [splitReNl]
  | case4 c t hov hnn hnil ih => exact absurd hnil ih
  | case5 c t hov hnn l ls hcons ih =>
    rw [splitReNl.eq_4 c t hov hnn, hcons]
    simp

theorem mem_of_mem_splitReNl {s seg : Str} {c : Char}
    (hseg : seg ∈ splitReNl s) (hc : c ∈ seg) : c ∈ s := by
  induction s using splitReNl.induct generalizing seg with
  | case1 =>
    simp only [splitReNl, List.mem_singleton] at hseg
    subst hseg
    simp at hc
  | case2 t ih =>
    simp only [splitReNl, List.mem_cons] at hseg
    rcases hseg with h1 | h1
    · subst h1; simp at hc
    · have := ih h1 hc
      simp [this]
  | case3 t ih =>
    simp only [splitReNl, List.mem_cons] at hseg
    rcases hseg with h1 | h1
    · subst h1; simp at hc
    · have := ih h1 hc
      simp [this]
  | case4 a t hov hnn hnil ih => exact absurd hnil (splitReNl_ne_nil t)
  | case5 a t hov hnn l ls hcons ih =>
    rw [splitReNl.eq_4 a t hov hnn, hcons] at hseg
    rcases List.mem_cons.mp hseg with h1 | h1
    · subst h1
      rcases List.mem_cons.mp hc with h2 | h2
      · exact h2 ▸ List.mem_cons_self a t
      · exact List.mem_cons_of_mem a (ih (hcons ▸ List.mem_cons_self l ls) h2)
    · exact List.mem_cons_of_mem a (ih (hcons ▸ List.mem_cons_of_mem l h1) hc)

theorem kvOfLine_some {l k v : Str} (h : kvOfLine l = some (k, v)) :
    ':' ∈ l ∧ v ≠ [] := by
  unfold kvOfLine at h
  split at h
  · next after heq =>
    dsimp only at h
    split at h
    · next hcond =>
      simp only [Option.some.injEq, Prod.mk.injEq] at h
      obtain ⟨hk, hv⟩ := h
      refine ⟨?_, ?_⟩
      · have : ':' ∈ l.dropWhile (fun c => c ≠ ':') := by
          rw [heq]; exact List.mem_cons_self ':' after
        exact (List.dropWhile_sublist _).subset this
      · rw [← hv]
        exact hcond.2.1
    · cases h
  · cases h

theorem buildMapFold_nil {ls : List Str} {acc : List (Str × Str)}
    (h : ∀ l ∈ ls, kvOfLine l = none) :
    ls.foldl buildStep acc = acc := by
  induction ls generalizing acc with
  | nil => rfl
  | cons l ls ih =>
    simp only [List.foldl_cons, buildStep, h l (List.mem_cons_self l ls)]
    exact ih (fun x hx => h x (List.mem_cons_of_mem l hx))

theorem intakeLines_no_colon {text l : Str} (h : ':' ∉ text)
    (hl : l ∈ intakeLines text) : ':' ∉ l := by
  intro hc
  unfold intakeLines at hl
  have h1 := (List.mem_filter.mp hl).1
  obtain ⟨l0, hl0, hl0t⟩ := List.mem_map.mp h1
  exact h (mem_of_mem_splitReNl hl0 (mem_trimStr (hl0t ▸ hc)))

theorem parseIntake_none_of_no_colon {text : Str} (h : ':' ∉ text) :
    parseIntakeFromText text = none := by
  have hm : buildMap text = [] := by
    unfold buildMap
    apply buildMapFold_nil
    intro l hl
    cases hkv : kvOfLine l with
    | none => rfl
    | some p =>
      obtain ⟨k, v⟩ := p
      exact absurd (kvOfLine_some hkv).1 (intakeLines_no_colon h hl)
  unfold parseIntakeFromText
  rw [hm]
  rfl

/-- C9: Direct code-request short-circuit: every non-empty trimmed
message matching one of the fixed code-request phrase patterns makes
`handleSend` append the immediate refusal (an assistant message of
type `warning`) and return — the session state is unchanged and
nothing is parsed, confirmed, or streamed — in every intake state. -/
theorem code_request_short_circuit (s : SessState) (input : Str)
    (hne : trimStr input ≠ [])
    (hcr : isCodeRequest (trimStr input) = true) :
    handleSend s input
      = ⟨s, [⟨.user, trimStr input, none⟩, ⟨.assistant, refusalContent, some .warning⟩],
          none⟩ := by
  unfold handleSend
  rw [if_neg hne, if_pos hcr]

/-- Witness for C9: the phrase "give me the code" inside a longer
message, sent while the collector is mid-intake (awaiting
confirmation with a held record): refusal of type warning, state
unchanged, nothing streamed. -/
theorem code_request_short_circuit_witness :
    handleSend ⟨some ⟨"a".data, "b".data, "c".data, "d".data⟩, false, true⟩
        ("please give me the code now".data)
      = ⟨⟨some ⟨"a".data, "b".data, "c".data, "d".data⟩, false, true⟩,
         [⟨.user, "please give me the code now".data, none⟩,
          ⟨.assistant, refusalContent, some .warning⟩], none⟩ :=
  code_request_short_circuit
    ⟨some ⟨"a".data, "b".data, "c".data, "d".data⟩, false, true⟩
    ("please give me the code now".data) (by decide) (by decide)

theorem handleSend_mutex (s : SessState) (input : Str)
    (h : ¬ (s.awaitingConfirmation = true ∧ s.intakeConfirmed = true)) :
    ¬ ((handleSend s input).state.awaitingConfirmation = true
        ∧ (handleSend s input).state.intakeConfirmed = true) := by
  unfold handleSend
  split
  · exact h
  split
  · exact h
  split
  · next hconf =>
    split
    · simp [hconf]
    split
    · simp
    split
    · simp [hconf]
    · exact h
  · exact h

theorem reachable_mutex (s : SessState) (h : Reachable s) :
    ¬ (s.awaitingConfirmation = true ∧ s.intakeConfirmed = true) := by
  induction h with
  | init => simp [initialSession]
  | step s input hs ih => exact handleSend_mutex s input ih

theorem handleSend_confirm_only_yes (s : SessState) (input : Str)
    (hconf : s.intakeConfirmed = false)
    (h : (handleSend s input).state.intakeConfirmed = true) :
    s.awaitingConfirmation = true ∧ s.intake.isSome = true ∧
      lower (trimStr input) = "yes".data := by
  unfold handleSend at h
  by_cases h0 : trimStr input = []
  · rw [if_pos h0] at h
    exact absurd h (by simp [hconf])
  rw [if_neg h0] at h
  by_cases h1 : isCodeRequest (trimStr input) = true
  · rw [if_pos h1] at h
    exact absurd h (by simp [hconf])
  rw [if_neg h1, if_pos hconf] at h
  cases hp : parseIntakeFromText (trimStr input) with
  | some parsed =>
    rw [hp] at h
    exact absurd h (by simp [hconf])
  | none =>
    rw [hp] at h
    by_cases hy : s.awaitingConfirmation = true ∧ lower (trimStr input) = "yes".data
        ∧ s.intake.isSome
    · exact ⟨hy.1, by simp [hy.2.2], hy.2.1⟩
    · rw [if_neg hy] at h
      by_cases hn : s.awaitingConfirmation = true ∧ lower (trimStr input) = "no".data
      · rw [if_pos hn] at h
        exact absurd h (by simp [hconf])
      · rw [if_neg hn] at h
        exact absurd h (by simp [hconf])

theorem handleSend_no_discards (s : SessState) (input : Str)
    (haw : s.awaitingConfirmation = true) (hconf : s.intakeConfirmed = false)
    (hno : lower (trimStr input) = "no".data) :
    (handleSend s input).state = ⟨none, false, false⟩ := by
  have hne : trimStr input ≠ [] := by
    intro hh
    rw [hh] at hno
    exact absurd hno (by decide)
  have hlen : (trimStr input).length = 2 := by
    have h1 := lower_length (trimStr input)
    rw [hno] at h1
    simpa using h1.symm
  have hcr : isCodeRequest (trimStr input) = false :=
    isCodeRequest_eq_false_of_short (by omega)
  have hcolon : ':' ∉ trimStr input := colon_not_mem_of_lower hno (by decide)
  have hparse := parseIntake_none_of_no_colon hcolon
  unfold handleSend
  rw [if_neg hne, if_neg (by simp [hcr]), if_pos hconf, hparse]
  rw [if_neg (fun hh => absurd (hno ▸ hh.2.1) (by decide)), if_pos ⟨haw, hno⟩]
  simp [hconf]

/-- C4: Intake confirmation state machine: in every reachable session
state, `awaitingConfirmation` and `intakeConfirmed` are never both
true; `intakeConfirmed` flips to true only on a message whose trimmed,
case-folded form is exactly "yes" while awaiting confirmation with a
held parsed record; and an exact "no" while awaiting discards the
record (intake = none) and returns to the collecting state. -/
theorem intake_confirmation_state_machine :
    (∀ s, Reachable s →
      ¬ (s.awaitingConfirmation = true ∧ s.intakeConfirmed = true)) ∧
    (∀ s input, s.intakeConfirmed = false →
      (handleSend s input).state.intakeConfirmed = true →
      s.awaitingConfirmation = true ∧ s.intake.isSome = true ∧
        lower (trimStr input) = "yes".data) ∧
    (∀ s input, s.awaitingConfirmation = true → s.intakeConfirmed = false →
      lower (trimStr input) = "no".data →
      (handleSend s input).state = ⟨none, false, false⟩) :=
  ⟨reachable_mutex,
   fun s input => handleSend_confirm_only_yes s input,
   fun s input => handleSend_no_discards s input⟩

def demoIntake : IntakeRecord := ⟨"a".data, "b".data, "c".data, "d".data⟩

/-- Witness for C4: the mutual-exclusion invariant at a concretely
reached state, the confirmation conditions extracted from a concrete
"YES" reply, and the record discard on a concrete "No" reply. -/
theorem intake_confirmation_state_machine_witness :
    (¬ ((handleSend initialSession ("hello".data)).state.awaitingConfirmation = true
        ∧ (handleSend initialSession ("hello".data)).state.intakeConfirmed = true)) ∧
    (⟨some demoIntake, false, true⟩ : SessState).awaitingConfirmation = true ∧
    ((handleSend ⟨some demoIntake, false, true⟩ ("No".data)).state
      = ⟨none, false, false⟩) := by
  refine ⟨?_, ?_, ?_⟩
  · exact intake_confirmation_state_machine.1 _
      (Reachable.step initialSession ("hello".data) Reachable.init)
  · exact (intake_confirmation_state_machine.2.1
      ⟨some demoIntake, false, true⟩ (" YES ".data) rfl (by decide)).1
  · exact intake_confirmation_state_machine.2.2
      ⟨some demoIntake, false, true⟩ ("No".data) rfl rfl (by decide)

def demoReparseMsg : Str :=
  "Project idea: B\nTech stack: C\nSkill level: D\nTimeline: E".data

/-- Counterexample to C5 as stated: while awaiting confirmation of a
held record, a message that is neither "yes" nor "no" but parses as a
complete intake is reparsed and REPLACES the held record (the parse
attempt runs before the confirmation check in `handleSend`). -/
theorem intake_reparse_counterexample :
    lower (trimStr demoReparseMsg) ≠ "yes".data ∧
    lower (trimStr demoReparseMsg) ≠ "no".data ∧
    (handleSend ⟨some demoIntake, false, true⟩ demoReparseMsg).state.intake
      ≠ some demoIntake ∧
    (handleSend ⟨some demoIntake, false, true⟩ demoReparseMsg).state.intake
      = some ⟨"B".data, "C".data, "D".data, "E".data⟩ := by
  refine ⟨by decide, by decide, by decide, by decide⟩

/-- C5 (amended): while awaiting confirmation, a non-empty message
other than exact "yes"/"no" that is not a code-request phrase leaves
the held record unchanged and elicits the standard format/confirm
prompt — unless it itself parses as a complete intake record, in which
case it is reparsed: the held record is replaced by the new one and
confirmation is re-asked with the new values. -/
theorem intake_awaiting_reprompt_or_reparse (s : SessState) (input : Str)
    (haw : s.awaitingConfirmation = true) (hconf : s.intakeConfirmed = false)
    (hne : trimStr input ≠ [])
    (hcr : isCodeRequest (trimStr input) = false) :
    (parseIntakeFromText (trimStr input) = none →
      lower (trimStr input) ≠ "yes".data →
      lower (trimStr input) ≠ "no".data →
      handleSend s input
        = ⟨s, [⟨.user, trimStr input, none⟩, ⟨.assistant, helperContent, some .question⟩],
            none⟩) ∧
    (∀ parsed, parseIntakeFromText (trimStr input) = some parsed →
      handleSend s input
        = ⟨⟨some parsed, false, true⟩,
           [⟨.user, trimStr input, none⟩,
            ⟨.assistant, echoContent parsed, some .question⟩], none⟩) := by
  constructor
  · intro hparse hyes hno
    unfold handleSend
    rw [if_neg hne, if_neg (by simp [hcr]), if_pos hconf, hparse]
    rw [if_neg (fun hh => hyes hh.2.1), if_neg (fun hh => hno hh.2)]
  · intro parsed hparse
    unfold handleSend
    rw [if_neg hne, if_neg (by simp [hcr]), if_pos hconf, hparse]
    simp [hconf]

/-- Witness for C5 (amended): a concrete unparseable reply keeps the
record and re-prompts; the concrete four-line reply replaces it. -/
theorem intake_awaiting_reprompt_witness :
    (handleSend ⟨some demoIntake, false, true⟩ ("what now".data)
      = ⟨⟨some demoIntake, false, true⟩,
         [⟨.user, "what now".data, none⟩,
          ⟨.assistant, helperContent, some .question⟩], none⟩) ∧
    (handleSend ⟨some demoIntake, false, true⟩ demoReparseMsg
      = ⟨⟨some ⟨"B".data, "C".data, "D".data, "E".data⟩, false, true⟩,
         [⟨.user, trimStr demoReparseMsg, none⟩,
          ⟨.assistant, echoContent ⟨"B".data, "C".data, "D".data, "E".data⟩,
            some .question⟩], none⟩) := by
  constructor
  · exact (intake_awaiting_reprompt_or_reparse ⟨some demoIntake, false, true⟩
      ("what now".data) rfl rfl (by decide) (by decide)).1 (by decide) (by decide) (by decide)
  · exact (intake_awaiting_reprompt_or_reparse ⟨some demoIntake, false, true⟩
      demoReparseMsg rfl rfl (by decide) (by decide)).2
      ⟨"B".data, "C".data, "D".data, "E".data⟩ (by decide)

/-- The alias chain of one intake target applied to one line: the
value when the line is a `key: value` line whose lowercased key is one
of the two aliases. -/
def lineAlias (a1 a2 l : Str) : Option Str :=
  match kvOfLine l with
  | some (k, v) => if k = a1 ∨ k = a2 then some v else none
  | none => none

/-- The text supplies value `v` for the target with aliases `a1/a2`:
some line yields it, and no line yields a competing value. -/
abbrev targetVal (a1 a2 text v : Str) : Prop :=
  (∃ l ∈ intakeLines text, lineAlias a1 a2 l = some v) ∧
  (∀ l ∈ intakeLines text, lineAlias a1 a2 l = none ∨ lineAlias a1 a2 l = some v)

theorem lineAlias_some {a1 a2 l v : Str} (h : lineAlias a1 a2 l = some v) :
    ∃ k, kvOfLine l = some (k, v) ∧ (k = a1 ∨ k = a2) := by
  unfold lineAlias at h
  split at h
  · next k w heq =>
    split at h
    · next hk =>
      simp only [Option.some.injEq] at h
      exact ⟨k, h ▸ heq, hk⟩
    · cases h
  · cases h

theorem lineAlias_of_kv {a1 a2 l k v : Str} (hkv : kvOfLine l = some (k, v))
    (hk : k = a1 ∨ k = a2) : lineAlias a1 a2 l = some v := by
  unfold lineAlias
  rw [hkv]
  exact if_pos hk

theorem subset_buildFold (ls : List Str) :
    ∀ acc, acc ⊆ ls.foldl buildStep acc := by
  induction ls with
  | nil => exact fun _ _ h => h
  | cons l ls ih =>
    intro acc p hp
    apply ih (buildStep acc l)
    simp only [buildStep]
    cases hkv : kvOfLine l with
    | some q => exact List.mem_append.mpr (Or.inl hp)
    | none => exact hp

theorem mem_buildFold {ls : List Str} :
    ∀ {acc : List (Str × Str)} {p : Str × Str}, p ∈ ls.foldl buildStep acc →
      p ∈ acc ∨ ∃ l ∈ ls, kvOfLine l = some p := by
  induction ls with
  | nil => exact fun h => Or.inl h
  | cons l ls ih =>
    intro acc p h
    rcases ih h with h1 | ⟨l', hl', hkv⟩
    · simp only [buildStep] at h1
      cases hkv : kvOfLine l with
      | some q =>
        rw [hkv] at h1
        rcases List.mem_append.mp h1 with h2 | h2
        · exact Or.inl h2
        · right
          refine ⟨l, List.mem_cons_self l ls, ?_⟩
          rw [hkv, List.mem_singleton.mp h2]
      | none =>
        rw [hkv] at h1
        exact Or.inl h1
    · exact Or.inr ⟨l', List.mem_cons_of_mem l hl', hkv⟩

theorem mem_buildFold_of (ls : List Str) :
    ∀ (acc : List (Str × Str)) (l : Str) (p : Str × Str), l ∈ ls →
      kvOfLine l = some p → p ∈ ls.foldl buildStep acc := by
  induction ls with
  | nil => intro _ _ _ hl; cases hl
  | cons x xs ih =>
    intro acc l p hl hkv
    rcases List.mem_cons.mp hl with h1 | h1
    · subst h1
      apply subset_buildFold xs (buildStep acc l)
      simp only [buildStep, hkv]
      exact List.mem_append.mpr (Or.inr (List.mem_singleton.mpr rfl))
    · exact ih (buildStep acc x) l p h1 hkv

theorem mem_buildMap {text : Str} {p : Str × Str} (h : p ∈ buildMap text) :
    ∃ l ∈ intakeLines text, kvOfLine l = some p := by
  rcases mem_buildFold h with h1 | h1
  · cases h1
  · exact h1

theorem buildMap_of_line {text l : Str} {p : Str × Str}
    (hl : l ∈ intakeLines text) (hkv : kvOfLine l = some p) : p ∈ buildMap text :=
  mem_buildFold_of (intakeLines text) [] l p hl hkv

theorem lookupMap_eq_of {m : List (Str × Str)} {k v1 : Str}
    (hex : ∃ v, (k, v) ∈ m) (hall : ∀ v, (k, v) ∈ m → v = v1) :
    lookupMap m k = v1 := by
  unfold lookupMap
  obtain ⟨v, hv⟩ := hex
  have hsome : (m.reverse.find? (fun p => p.1 = k)).isSome := by
    rw [List.find?_isSome]
    exact ⟨(k, v), List.mem_reverse.mpr hv, by simp⟩
  match hf : m.reverse.find? (fun p => p.1 = k) with
  | none => rw [hf] at hsome; cases hsome
  | some a =>
    rw [hf]
    have hk : a.1 = k := by
      have := List.find?_some hf
      simpa using this
    have hm : a ∈ m := List.mem_reverse.mp (List.mem_of_find?_eq_some hf)
    have : a = (k, a.2) := by
      cases a
      simp at hk
      simp [hk]
    exact hall a.2 (this ▸ hm)

theorem lookupMap_eq_nil {m : List (Str × Str)} {k : Str}
    (h : ∀ v, (k, v) ∉ m) : lookupMap m k = [] := by
  unfold lookupMap
  have hf : m.reverse.find? (fun p => p.1 = k) = none := by
    rw [List.find?_eq_none]
    intro x hx
    simp only [decide_eq_true_eq]
    intro hk
    exact h x.2 (by
      have : x = (k, x.2) := by
        cases x
        simp at hk
        simp [hk]
      exact this ▸ List.mem_reverse.mp hx)
  rw [hf]

theorem lookup_pair_of_targetVal {a1 a2 text v : Str}
    (h : targetVal a1 a2 text v) :
    firstNonEmpty (lookupMap (buildMap text) a1) (lookupMap (buildMap text) a2) = v
      ∧ v ≠ [] := by
  obtain ⟨⟨l, hl, hla⟩, hall⟩ := h
  obtain ⟨k, hkv, hk⟩ := lineAlias_some hla
  have hvne : v ≠ [] := (kvOfLine_some hkv).2
  have hall1 : ∀ w, (a1, w) ∈ buildMap text → w = v := by
    intro w hw
    obtain ⟨l', hl', hkv'⟩ := mem_buildMap hw
    have := @lineAlias_of_kv a1 a2 l' a1 w hkv' (Or.inl rfl)
    rcases hall l' hl' with hnone | hsome
    · rw [this] at hnone; cases hnone
    · rw [this] at hsome
      exact Option.some.inj hsome
  have hall2 : ∀ w, (a2, w) ∈ buildMap text → w = v := by
    intro w hw
    obtain ⟨l', hl', hkv'⟩ := mem_buildMap hw
    have := @lineAlias_of_kv a1 a2 l' a2 w hkv' (Or.inr rfl)
    rcases hall l' hl' with hnone | hsome
    · rw [this] at hnone; cases hnone
    · rw [this] at hsome
      exact Option.some.inj hsome
  refine ⟨?_, hvne⟩
  by_cases hex1 : ∃ w, (a1, w) ∈ buildMap text
  · rw [lookupMap_eq_of hex1 hall1]
    unfold firstNonEmpty
    rw [if_pos hvne]
  · have hnil1 : lookupMap (buildMap text) a1 = [] :=
      lookupMap_eq_nil (fun w hw => hex1 ⟨w, hw⟩)
    have hk2 : k = a2 := by
      rcases hk with h1 | h1
      · exfalso
        exact hex1 ⟨v, h1 ▸ buildMap_of_line hl hkv⟩
      · exact h1
    have hex2 : ∃ w, (a2, w) ∈ buildMap text :=
      ⟨v, hk2 ▸ buildMap_of_line hl hkv⟩
    rw [hnil1, lookupMap_eq_of hex2 hall2]
    unfold firstNonEmpty
    simp [hvne]

theorem lookup_pair_nil {a1 a2 text : Str}
    (h : ∀ l ∈ intakeLines text, lineAlias a1 a2 l = none) :
    firstNonEmpty (lookupMap (buildMap text) a1) (lookupMap (buildMap text) a2) = [] := by
  have h1 : lookupMap (buildMap text) a1 = [] := by
    apply lookupMap_eq_nil
    intro w hw
    obtain ⟨l', hl', hkv'⟩ := mem_buildMap hw
    have := @lineAlias_of_kv a1 a2 l' a1 w hkv' (Or.inl rfl)
    rw [h l' hl'] at this
    cases this
  have h2 : lookupMap (buildMap text) a2 = [] := by
    apply lookupMap_eq_nil
    intro w hw
    obtain ⟨l', hl', hkv'⟩ := mem_buildMap hw
    have := @lineAlias_of_kv a1 a2 l' a2 w hkv' (Or.inr rfl)
    rw [h l' hl'] at this
    cases this
  rw [h1, h2]
  rfl

/-- C6: Intake parsing: whenever the lines of a text supply, in any
order and possibly among extra surrounding lines, a `key: value` line
with a case-insensitive alias key and a (necessarily non-empty) value
for each of the four targets — and no line supplies a competing value —
`parseIntakeFromText` returns exactly those four values. Whenever some
target is supplied by no line at all, it returns `none`; and on a
parse failure the collector (in the collecting state) replies with the
required-format helper and keeps its state unchanged. -/
theorem parse_intake_extraction :
    (∀ text v1 v2 v3 v4,
      targetVal ("project idea".data) ("project".data) text v1 →
      targetVal ("tech stack".data) ("tech".data) text v2 →
      targetVal ("skill level".data) ("skill".data) text v3 →
      targetVal ("timeline".data) ("timeframe".data) text v4 →
      parseIntakeFromText text = some ⟨v1, v2, v3, v4⟩) ∧
    (∀ text : Str,
      ((∀ l ∈ intakeLines text, lineAlias ("project idea".data) ("project".data) l = none) ∨
       (∀ l ∈ intakeLines text, lineAlias ("tech stack".data) ("tech".data) l = none) ∨
       (∀ l ∈ intakeLines text, lineAlias ("skill level".data) ("skill".data) l = none) ∨
       (∀ l ∈ intakeLines text, lineAlias ("timeline".data) ("timeframe".data) l = none)) →
      parseIntakeFromText text = none) ∧
    (∀ s input, s.intakeConfirmed = false → s.awaitingConfirmation = false →
      trimStr input ≠ [] → isCodeRequest (trimStr input) = false →
      parseIntakeFromText (trimStr input) = none →
      handleSend s input
        = ⟨s, [⟨.user, trimStr input, none⟩, ⟨.assistant, helperContent, some .question⟩],
            none⟩) := by
  refine ⟨?_, ?_, ?_⟩
  · intro text v1 v2 v3 v4 h1 h2 h3 h4
    obtain ⟨e1, n1⟩ := lookup_pair_of_targetVal h1
    obtain ⟨e2, n2⟩ := lookup_pair_of_targetVal h2
    obtain ⟨e3, n3⟩ := lookup_pair_of_targetVal h3
    obtain ⟨e4, n4⟩ := lookup_pair_of_targetVal h4
    simp only [parseIntakeFromText]
    rw [e1, e2, e3, e4, if_pos ⟨n1, n2, n3, n4⟩]
  · intro text hmiss
    simp only [parseIntakeFromText]
    rcases hmiss with h | h | h | h
    · rw [lookup_pair_nil h]
      simp
    · rw [lookup_pair_nil h]
      simp
    · rw [lookup_pair_nil h]
      simp
    · rw [lookup_pair_nil h]
      simp
  · intro s input hconf haw hne hcr hparse
    have hnaw1 : ¬ (s.awaitingConfirmation = true ∧ lower (trimStr input) = "yes".data
        ∧ s.intake.isSome) := by
      intro hh
      rw [haw] at hh
      exact absurd hh.1 (by simp)
    have hnaw2 : ¬ (s.awaitingConfirmation = true ∧ lower (trimStr input) = "no".data) := by
      intro hh
      rw [haw] at hh
      exact absurd hh.1 (by simp)
    unfold handleSend
    rw [if_neg hne, if_neg (by simp [hcr]), if_pos hconf, hparse,
      if_neg hnaw1, if_neg hnaw2]

def demoIntakeMsg : Str :=
  "hey\ntimeframe: 2w\nSKILL: mid\ntech: rust\nProject: game\nnoise".data

/-- Witness for C6: the four targets supplied via aliases, in
scrambled order, between extra non-matching lines; a text missing the
project target parses to nothing; and a non-intake message in the
collecting state triggers the helper reply with unchanged state. -/
theorem parse_intake_extraction_witness :
    parseIntakeFromText demoIntakeMsg
      = some ⟨"game".data, "rust".data, "mid".data, "2w".data⟩ ∧
    parseIntakeFromText ("Tech stack: React\nSkill level: b\nTimeline: 2 weeks".data)
      = none ∧
    handleSend initialSession ("hi there".data)
      = ⟨initialSession, [⟨.user, "hi there".data, none⟩,
          ⟨.assistant, helperContent, some .question⟩], none⟩ := by
  refine ⟨?_, ?_, ?_⟩
  · exact parse_intake_extraction.1 demoIntakeMsg
      ("game".data) ("rust".data) ("mid".data) ("2w".data)
      (by decide) (by decide) (by decide) (by decide)
  · exact parse_intake_extraction.2.1
      ("Tech stack: React\nSkill level: b\nTimeline: 2 weeks".data)
      (Or.inl (by decide))
  · exact parse_intake_extraction.2.2 initialSession ("hi there".data)
      rfl rfl (by decide) (by decide) (by decide)

/-! ## The Operation Dispatcher (`applyFileOps`, `applyMilestoneOps`) -/

/-- A file operation object (`{action, path, content?, language?,
recursive?, newName?, newPath?, filename?}`); `recursive` holds the
already-coerced `!!op.recursive`. -/
structure FileOp where
  action : Str
  path : Option Str := none
  content : Option Str := none
  language : Option Str := none
  recursive : Bool := false
  newName : Option Str := none
  newPath : Option Str := none
  filename : Option Str := none
deriving DecidableEq

/-- `o || d` on an optional string field ("" is falsy). -/
def jsOr (o : Option Str) (d : Str) : Str :=
  match o with
  | some s => if s = [] then d else s
  | none => d

/-- `a || b` keeping the optional shape (`op.newName || op.newPath`). -/
def jsOrOpt (a b : Option Str) : Option Str :=
  match a with
  | some s => if s = [] then b else some s
  | none => b

/-- The external virtual-file-system collaborator (`useFileSystem`):
each method returns the next file-system state paired with a thrown
value, if the call threw. -/
structure FS (σ : Type) where
  createFile : σ → Option Str → Str → Str → σ × Option Str
  updateFile : σ → Option Str → Str → σ × Option Str
  deleteFile : σ → Option Str → Bool → σ × Option Str
  renameFile : σ → Option Str → Option Str → σ × Option Str
  exportProject : σ → Str

/-- The collaborators reachable from `applyFileOps`: the optional file
system (`fs` is null when no provider is attached), the DOM download
side effect of `export` (json, filename, possible throw), the
`JSON.stringify(currentFiles, null, 2)` fallback, and the generated
default download name. -/
structure FileEnv (σ : Type) where
  fs : Option (FS σ)
  download : Str → Str → Option Str
  currentFilesJson : Str
  defaultName : Str

/-- The single collaborator interaction of one recognized file
operation (`if (fs) fs.X(...)`; export serializes and downloads):
resulting state and thrown value. An unrecognized action interacts
with nothing. -/
def fileCallEffect {σ : Type} (env : FileEnv σ) (s : σ) (op : FileOp) : σ × Option Str :=
  if op.action = "create".data then
    match env.fs with
    | some f => f.createFile s op.path (jsOr op.content []) (jsOr op.language ("text".data))
    | none => (s, none)
  else if op.action = "update".data then
    match env.fs with
    | some f => f.updateFile s op.path (jsOr op.content [])
    | none => (s, none)
  else if op.action = "delete".data then
    match env.fs with
    | some f => f.deleteFile s op.path op.recursive
    | none => (s, none)
  else if op.action = "rename".data then
    match env.fs with
    | some f => f.renameFile s op.path (jsOrOpt op.newName op.newPath)
    | none => (s, none)
  else if op.action = "export".data then
    (s, env.download
      (match env.fs with
       | some f => f.exportProject s
       | none => env.currentFilesJson)
      (jsOr op.filename env.defaultName))
  else (s, none)

/-- One `{...op, status, error?}` entry of the `applied` results. -/
structure FileRes where
  op : FileOp
  status : Str
  error : Option Str := none
deriving DecidableEq

def recognizedFileActions : List Str :=
  ["create".data, "update".data, "delete".data, "rename".data, "export".data]

/-- One iteration of the `for (const op of operations)` loop of
`applyFileOps`: the switch dispatch wrapped in try/catch — a
recognized action that returns without throwing records `ok`, a throw
is caught and recorded as `error` with the stringified cause, an
unrecognized action records `unknown-action`. -/
def fileStep {σ : Type} (env : FileEnv σ) (s : σ) (op : FileOp) : FileRes × σ :=
  if op.action ∈ recognizedFileActions then
    match fileCallEffect env s op with
    | (s2, none) => (⟨op, "ok".data, none⟩, s2)
    | (s2, some e) => (⟨op, "error".data, some e⟩, s2)
  else (⟨op, "unknown-action".data, none⟩, s)

/-- `applyFileOps` over the normalized operation list (the JS wraps a
bare object as a one-element array and returns before the loop when
`ops` is null): the per-operation loop, accumulating results in
operation order. -/
def applyFileOps {σ : Type} (env : FileEnv σ) (s : σ) : List FileOp → List FileRes × σ
  | [] => ([], s)
  | op :: rest =>
    match fileStep env s op with
    | (r, s2) =>
      match applyFileOps env s2 rest with
      | (rs, s3) => (r :: rs, s3)

/-- A milestone/task operation object. `progress` is present exactly
when `typeof op.progress === "number"`. -/
structure MsOp where
  action : Str
  milestone_id : Option Str := none
  task_id : Option Str := none
  status : Option Str := none
  title : Option Str := none
  description : Option Str := none
  due_date : Option Str := none
  progress : Option Int := none
deriving DecidableEq

/-- The update payload built from the provided (truthy) subset. -/
structure MsPayload where
  status : Option Str := none
  title : Option Str := none
  description : Option Str := none
  due_date : Option Str := none
  progress : Option Int := none
deriving DecidableEq

/-- `if (op.x) payload.x = op.x`: keep only truthy fields. -/
def truthyField (o : Option Str) : Option Str :=
  match o with
  | some s => if s = [] then none else some s
  | none => none

/-- The external database collaborator
(`supabase.from("milestones"|"tasks").update(payload).eq("id", id)`):
next state and the `error` value thrown by `if (error) throw error`
(or a rejected await). -/
structure DB (σ : Type) where
  updateMilestone : σ → MsPayload → Str → σ × Option Str
  updateTask : σ → MsPayload → Str → σ × Option Str

/-- The collaborator interaction of one recognized milestone/task
operation, including the local `throw new Error("..._id is required")`
on a falsy identifier (the thrown value is its stringified form). -/
def msCallEffect {σ : Type} (db : DB σ) (s : σ) (op : MsOp) : σ × Option Str :=
  if op.action = "update_milestone".data then
    if jsOr op.milestone_id [] = [] then
      (s, some ("Error: milestone_id is required".data))
    else
      db.updateMilestone s
        ⟨truthyField op.status, truthyField op.title, truthyField op.description,
         truthyField op.due_date, none⟩
        (jsOr op.milestone_id [])
  else if op.action = "update_task".data then
    if jsOr op.task_id [] = [] then
      (s, some ("Error: task_id is required".data))
    else
      db.updateTask s
        ⟨truthyField op.status, truthyField op.title, truthyField op.description,
         none, op.progress⟩
        (jsOr op.task_id [])
  else (s, none)

structure MsRes where
  op : MsOp
  status : Str
  error : Option Str := none
deriving DecidableEq

def recognizedMsActions : List Str :=
  ["update_milestone".data, "update_task".data]

/-- One iteration of the `applyMilestoneOps` loop (switch in
try/catch, identical result discipline to the file domain). -/
def milestoneStep {σ : Type} (db : DB σ) (s : σ) (op : MsOp) : MsRes × σ :=
  if op.action ∈ recognizedMsActions then
    match msCallEffect db s op with
    | (s2, none) => (⟨op, "ok".data, none⟩, s2)
    | (s2, some e) => (⟨op, "error".data, some e⟩, s2)
  else (⟨op, "unknown-action".data, none⟩, s)

/-- `applyMilestoneOps` over the normalized operation list. -/
def applyMilestoneOps {σ : Type} (db : DB σ) (s : σ) : List MsOp → List MsRes × σ
  | [] => ([], s)
  | op :: rest =>
    match milestoneStep db s op with
    | (r, s2) =>
      match applyMilestoneOps db s2 rest with
      | (rs, s3) => (r :: rs, s3)

/-- The aggregate reported after a milestone batch
(`results.filter(r => r.status !== "ok").length`). -/
def msFailedCount (rs : List MsRes) : Nat :=
  (rs.filter (fun r => r.status ≠ "ok".data)).length

theorem applyFileOps_length {σ : Type} (env : FileEnv σ) :
    ∀ (ops : List FileOp) (s : σ),
      (applyFileOps env s ops).1.length = ops.length := by
  intro ops
  induction ops with
  | nil => intro s; rfl
  | cons op rest ih =>
    intro s
    simp only [applyFileOps]
    rcases hstep : fileStep env s op with ⟨r, s2⟩
    rcases happ : applyFileOps env s2 rest with ⟨rs, s3⟩
    have ihs := ih s2
    rw [happ] at ihs
    simp [ihs]

theorem applyFileOps_get {σ : Type} (env : FileEnv σ) :
    ∀ (ops : List FileOp) (s : σ) (j : Nat) (op : FileOp), ops[j]? = some op →
      (applyFileOps env s ops).1[j]?
        = some (fileStep env (applyFileOps env s (ops.take j)).2 op).1 := by
  intro ops
  induction ops with
  | nil => intro s j op h; simp at h
  | cons o rest ih =>
    intro s j op h
    cases j with
    | zero =>
      simp only [List.getElem?_cons_zero, Option.some.injEq] at h
      subst h
      simp only [applyFileOps, List.take_zero]
      rcases hstep : fileStep env s o with ⟨r, s2⟩
      simp
    | succ j =>
      simp only [List.getElem?_cons_succ] at h
      simp only [applyFileOps, List.take_succ_cons]
      rcases hstep : fileStep env s o with ⟨r, s2⟩
      simp only [List.getElem?_cons_succ]
      exact ih s2 j op h

theorem fileStep_status {σ : Type} (env : FileEnv σ) (s : σ) (op : FileOp) :
    (op.action ∉ recognizedFileActions →
      fileStep env s op = (⟨op, "unknown-action".data, none⟩, s)) ∧
    (op.action ∈ recognizedFileActions →
      ((fileCallEffect env s op).2 = none →
        fileStep env s op = (⟨op, "ok".data, none⟩, (fileCallEffect env s op).1)) ∧
      (∀ e, (fileCallEffect env s op).2 = some e →
        fileStep env s op = (⟨op, "error".data, some e⟩, (fileCallEffect env s op).1))) := by
  refine ⟨?_, ?_⟩
  · intro h
    simp only [fileStep, if_neg h]
  · intro h
    refine ⟨?_, ?_⟩
    · intro heff
      rcases hc : fileCallEffect env s op with ⟨s2, e⟩
      rw [hc] at heff
      subst heff
      simp only [fileStep, if_pos h, hc]
    · intro e heff
      rcases hc : fileCallEffect env s op with ⟨s2, e2⟩
      rw [hc] at heff
      simp only at heff
      subst heff
      simp only [fileStep, if_pos h, hc]

theorem applyMilestoneOps_length {σ : Type} (db : DB σ) :
    ∀ (ops : List MsOp) (s : σ),
      (applyMilestoneOps db s ops).1.length = ops.length := by
  intro ops
  induction ops with
  | nil => intro s; rfl
  | cons op rest ih =>
    intro s
    simp only [applyMilestoneOps]
    rcases hstep : milestoneStep db s op with ⟨r, s2⟩
    rcases happ : applyMilestoneOps db s2 rest with ⟨rs, s3⟩
    have ihs := ih s2
    rw [happ] at ihs
    simp [ihs]

theorem applyMilestoneOps_get {σ : Type} (db : DB σ) :
    ∀ (ops : List MsOp) (s : σ) (j : Nat) (op : MsOp), ops[j]? = some op →
      (applyMilestoneOps db s ops).1[j]?
        = some (milestoneStep db (applyMilestoneOps db s (ops.take j)).2 op).1 := by
  intro ops
  induction ops with
  | nil => intro s j op h; simp at h
  | cons o rest ih =>
    intro s j op h
    cases j with
    | zero =>
      simp only [List.getElem?_cons_zero, Option.some.injEq] at h
      subst h
      simp only [applyMilestoneOps, List.take_zero]
      rcases hstep : milestoneStep db s o with ⟨r, s2⟩
      simp
    | succ j =>
      simp only [List.getElem?_cons_succ] at h
      simp only [applyMilestoneOps, List.take_succ_cons]
      rcases hstep : milestoneStep db s o with ⟨r, s2⟩
      simp only [List.getElem?_cons_succ]
      exact ih s2 j op h

theorem milestoneStep_status {σ : Type} (db : DB σ) (s : σ) (op : MsOp) :
    (op.action ∉ recognizedMsActions →
      milestoneStep db s op = (⟨op, "unknown-action".data, none⟩, s)) ∧
    (op.action ∈ recognizedMsActions →
      ((msCallEffect db s op).2 = none →
        milestoneStep db s op = (⟨op, "ok".data, none⟩, (msCallEffect db s op).1)) ∧
      (∀ e, (msCallEffect db s op).2 = some e →
        milestoneStep db s op = (⟨op, "error".data, some e⟩, (msCallEffect db s op).1))) := by
  refine ⟨?_, ?_⟩
  · intro h
    simp only [milestoneStep, if_neg h]
  · intro h
    refine ⟨?_, ?_⟩
    · intro heff
      rcases hc : msCallEffect db s op with ⟨s2, e⟩
      rw [hc] at heff
      subst heff
      simp only [milestoneStep, if_pos h, hc]
    · intro e heff
      rcases hc : msCallEffect db s op with ⟨s2, e2⟩
      rw [hc] at heff
      simp only at heff
      subst heff
      simp only [milestoneStep, if_pos h, hc]

/-- C3: Dispatcher fault isolation, in both domains and for every
collaborator behavior: a batch of k operations yields exactly k
results; result j is the step outcome of operation j at the state
reached after the first j operations, so later operations never
affect it and processing always continues past a failure; and each
step records `ok` for a recognized action whose collaborator call
returns, `error` with the stringified thrown cause when it throws, and
`unknown-action` for an unrecognized action. -/
theorem dispatcher_fault_isolation :
    (∀ (σ : Type) (env : FileEnv σ) (s : σ) (ops : List FileOp),
      (applyFileOps env s ops).1.length = ops.length) ∧
    (∀ (σ : Type) (env : FileEnv σ) (s : σ) (ops : List FileOp) (j : Nat) (op : FileOp),
      ops[j]? = some op →
      (applyFileOps env s ops).1[j]?
        = some (fileStep env (applyFileOps env s (ops.take j)).2 op).1) ∧
    (∀ (σ : Type) (env : FileEnv σ) (s : σ) (op : FileOp),
      (op.action ∉ recognizedFileActions →
        fileStep env s op = (⟨op, "unknown-action".data, none⟩, s)) ∧
      (op.action ∈ recognizedFileActions →
        ((fileCallEffect env s op).2 = none →
          fileStep env s op = (⟨op, "ok".data, none⟩, (fileCallEffect env s op).1)) ∧
        (∀ e, (fileCallEffect env s op).2 = some e →
          fileStep env s op = (⟨op, "error".data, some e⟩, (fileCallEffect env s op).1)))) ∧
    (∀ (σ : Type) (db : DB σ) (s : σ) (ops : List MsOp),
      (applyMilestoneOps db s ops).1.length = ops.length) ∧
    (∀ (σ : Type) (db : DB σ) (s : σ) (ops : List MsOp) (j : Nat) (op : MsOp),
      ops[j]? = some op →
      (applyMilestoneOps db s ops).1[j]?
        = some (milestoneStep db (applyMilestoneOps db s (ops.take j)).2 op).1) ∧
    (∀ (σ : Type) (db : DB σ) (s : σ) (op : MsOp),
      (op.action ∉ recognizedMsActions →
        milestoneStep db s op = (⟨op, "unknown-action".data, none⟩, s)) ∧
      (op.action ∈ recognizedMsActions →
        ((msCallEffect db s op).2 = none →
          milestoneStep db s op = (⟨op, "ok".data, none⟩, (msCallEffect db s op).1)) ∧
        (∀ e, (msCallEffect db s op).2 = some e →
          milestoneStep db s op
            = (⟨op, "error".data, some e⟩, (msCallEffect db s op).1)))) :=
  ⟨fun σ env s ops => applyFileOps_length env ops s,
   fun σ env s ops j op h => applyFileOps_get env ops s j op h,
   fun σ env s op => fileStep_status env s op,
   fun σ db s ops => applyMilestoneOps_length db ops s,
   fun σ db s ops j op h => applyMilestoneOps_get db ops s j op h,
   fun σ db s op => milestoneStep_status db s op⟩

def demoFS : FS Nat :=
  ⟨fun s _ _ _ => (s + 1, none),
   fun s _ _ => (s, some ("boom".data)),
   fun s _ _ => (s + 1, none),
   fun s _ _ => (s + 1, none),
   fun _ => "files".data⟩

def demoEnv : FileEnv Nat :=
  ⟨some demoFS, fun _ _ => none, "cur".data, "p.json".data⟩

def demoCreateOp : FileOp :=
  ⟨"create".data, some ("/a.ts".data), some ("x".data), none, false, none, none, none⟩

def demoUpdateOp : FileOp :=
  ⟨"update".data, some ("/a.ts".data), some ("y".data), none, false, none, none, none⟩

def demoBogusOp : FileOp :=
  ⟨"frobnicate".data, none, none, none, false, none, none, none⟩

def demoOps : List FileOp := [demoCreateOp, demoUpdateOp, demoBogusOp]

def demoDB : DB Nat :=
  ⟨fun s _ _ => (s, some ("dberr".data)), fun s _ _ => (s + 1, none)⟩

def demoMsOps : List MsOp :=
  [⟨"update_task".data, none, some ("t1".data), some ("done".data), none, none, none, some 50⟩,
   ⟨"update_milestone".data, none, none, none, none, none, none, none⟩,
   ⟨"bogus".data, none, none, none, none, none, none, none⟩]

/-- Witness for C3: a 3-operation file batch where the middle
operation throws and the last has an unrecognized action — three
results in order, `ok`/`error`/`unknown-action`, each independent; and
a milestone batch whose middle operation lacks the required id. -/
theorem dispatcher_fault_isolation_witness :
    (applyFileOps demoEnv 0 demoOps).1[0]?
      = some ⟨demoCreateOp, "ok".data, none⟩ ∧
    (applyFileOps demoEnv 0 demoOps).1[1]?
      = some ⟨demoUpdateOp, "error".data, some ("boom".data)⟩ ∧
    (applyFileOps demoEnv 0 demoOps).1[2]?
      = some ⟨demoBogusOp, "unknown-action".data, none⟩ ∧
    (applyFileOps demoEnv 0 demoOps).1.length = demoOps.length ∧
    (applyMilestoneOps demoDB 0 demoMsOps).1[1]?
      = some ⟨⟨"update_milestone".data, none, none, none, none, none, none, none⟩,
          "error".data, some ("Error: milestone_id is required".data)⟩ := by
  refine ⟨?_, ?_, ?_, ?_, ?_⟩
  · exact dispatcher_fault_isolation.2.1 Nat demoEnv 0 demoOps 0 demoCreateOp rfl
  · exact dispatcher_fault_isolation.2.1 Nat demoEnv 0 demoOps 1 demoUpdateOp rfl
  · exact dispatcher_fault_isolation.2.1 Nat demoEnv 0 demoOps 2 demoBogusOp rfl
  · exact dispatcher_fault_isolation.1 Nat demoEnv 0 demoOps
  · exact dispatcher_fault_isolation.2.2.2.2.1 Nat demoDB 0 demoMsOps 1
      ⟨"update_milestone".data, none, none, none, none, none, none, none⟩ rfl

/-- C10: with no file-system collaborator attached (`fs` null),
`applyFileOps` still records `ok` for every create, update, delete and
rename operation, while performing no interaction that could change
any file state (the threaded collaborator state is returned
untouched); an all-`ok` result list therefore does not imply that a
file-system change occurred. -/
theorem fileops_ok_without_fs {σ : Type} (env : FileEnv σ) (hfs : env.fs = none) :
    ∀ ops : List FileOp,
      (∀ op ∈ ops, op.action = "create".data ∨ op.action = "update".data
        ∨ op.action = "delete".data ∨ op.action = "rename".data) →
      ∀ s : σ,
        (∀ r ∈ (applyFileOps env s ops).1, r.status = "ok".data ∧ r.error = none) ∧
        (applyFileOps env s ops).2 = s := by
  intro ops
  induction ops with
  | nil =>
    intro _ s
    exact ⟨fun r hr => absurd hr (by simp [applyFileOps]), rfl⟩
  | cons op rest ih =>
    intro hacts s
    have hact := hacts op (List.mem_cons_self op rest)
    have heff : fileCallEffect env s op = (s, none) := by
      rcases hact with h | h | h | h
      · unfold fileCallEffect
        rw [h, if_pos rfl, hfs]
      · unfold fileCallEffect
        rw [h, if_neg (by decide), if_pos rfl, hfs]
      · unfold fileCallEffect
        rw [h, if_neg (by decide), if_neg (by decide), if_pos rfl, hfs]
      · unfold fileCallEffect
        rw [h, if_neg (by decide), if_neg (by decide), if_neg (by decide), if_pos rfl, hfs]
    have hmem : op.action ∈ recognizedFileActions := by
      rcases hact with h | h | h | h <;> rw [h] <;> decide
    have hstep : fileStep env s op = (⟨op, "ok".data, none⟩, s) := by
      unfold fileStep
      rw [if_pos hmem, heff]
    simp only [applyFileOps]
    rw [hstep]
    have ihs := ih (fun o ho => hacts o (List.mem_cons_of_mem op ho)) s
    rcases happ : applyFileOps env s rest with ⟨rs, s3⟩
    rw [happ] at ihs
    refine ⟨?_, ihs.2⟩
    intro r hr
    rcases List.mem_cons.mp hr with h1 | h1
    · subst h1
      exact ⟨rfl, rfl⟩
    · exact ihs.1 r h1

def demoNoFsEnv : FileEnv Nat :=
  ⟨none, fun _ _ => none, "cur".data, "n.json".data⟩

def demoDeleteOp : FileOp :=
  ⟨"delete".data, some ("/a.ts".data), none, none, true, none, none, none⟩

/-- Witness for C10: with `fs` null, a create + delete batch reports
all `ok` and the collaborator state is untouched. -/
theorem fileops_ok_without_fs_witness :
    (∀ r ∈ (applyFileOps demoNoFsEnv 7 [demoCreateOp, demoDeleteOp]).1,
      r.status = "ok".data ∧ r.error = none) ∧
    (applyFileOps demoNoFsEnv 7 [demoCreateOp, demoDeleteOp]).2 = 7 :=
  fileops_ok_without_fs demoNoFsEnv rfl [demoCreateOp, demoDeleteOp] (by decide) 7

end ProjectSkill
